import Mathlib

/-!
Verification of the concurrent sqlite load harness (`main.go`).

We shallowly embed the harness's core functions over an abstract model of the
storage engine: a database table is a list of `(i, str)` rows, fallible engine
operations are driven by explicit failure oracles (`WEnv`, `REnv`, ...), and
the control flow of each Go function is translated statement by statement.
Side effects that the claims talk about (transaction begin/commit/rollback,
statement lifecycle, handle opens) are recorded in an explicit event trace.
-/

namespace SqliteRepro

/-- One row of the table `t(i int, str text)` created by `createAndTestDb`. -/
abbrev Row : Type := Nat × String

/-- The contents of table `t`: the committed rows, in insertion order. -/
abbrev Table : Type := List Row

/-- Observable events of one database instance, in program order:
transaction begin, statement prepare, a bound execute of key `i`, statement
close, rollback, commit, the write-handle open, the schema DDL, and the open
of read-only handle `j`. -/
inductive Ev where
  | evBegin
  | evPrepare
  | evExec (i : Nat)
  | evStmtClose
  | evRollback
  | evCommit
  | evOpenWrite
  | evSchema
  | evOpenRead (j : Nat)
  deriving DecidableEq, Repr

/-- Errors the write workload `inserts` can return, tagged by the operation
that failed (`db.Begin`, `tx.Prepare`, `stmt.Exec` at key `i`, `tx.Commit`). -/
inductive IErr where
  | beginErr
  | prepareErr
  | execErr (i : Nat)
  | commitErr
  deriving DecidableEq, Repr

/-- Result of the write workload: success, an engine error, or divergence
(the Go loop `for i := 0; i < n;` never advances when `commitEvery = 0`). -/
inductive IRes where
  | ok
  | err (e : IErr)
  | divergent
  deriving DecidableEq, Repr

/-- Failure oracle for the write workload.  `beginFails`, `prepareFails` and
`commitFails` are indexed by the key at which the batch starts; `execFails`
by the key being inserted. -/
structure WEnv where
  beginFails : Nat → Bool
  prepareFails : Nat → Bool
  execFails : Nat → Bool
  commitFails : Nat → Bool

/-- A write environment in which no engine operation fails. -/
def benignWEnv : WEnv :=
  ⟨fun _ => false, fun _ => false, fun _ => false, fun _ => false⟩

/-- Output of the write workload: its result, the committed table, and the
event trace. -/
structure InsOut where
  res : IRes
  table : Table
  trace : List Ev
  deriving Repr

/-- The inner loop of `inserts`:
`for j := 0; j < commitEvery && i < n; j++ { stmt.Exec(i, randomString(..)); i++ }`.
`fuel` is `commitEvery - j`.  Returns the error (if a bound execute failed,
after `stmt.Close(); tx.Rollback()`), the new `i`, the rows pending in the
open transaction, and the extended trace. -/
def batchLoop (env : WEnv) (gen : Nat → String) (n : Nat) :
    Nat → Nat → List Row → List Ev → Option IErr × Nat × List Row × List Ev
  | i, 0, pending, tr => (none, i, pending, tr)
  | i, fuel + 1, pending, tr =>
    if i < n then
      if env.execFails i then
        (some (.execErr i), i, pending, tr ++ [.evExec i, .evStmtClose, .evRollback])
      else
        batchLoop env gen n (i + 1) fuel (pending ++ [(i, gen i)]) (tr ++ [.evExec i])
    else (none, i, pending, tr)

/-- The outer loop of `inserts` (`main.go` lines 220–246): while `i < n`,
begin a transaction, prepare the insert statement (rolling back on prepare
failure), run the inner batch loop, close the statement, and commit.  On a
commit failure the error is returned with no rollback, exactly as in the
source.  The case where a committed batch made no progress (only possible
when `commitEvery = 0`) is the Go infinite loop, reported as `.divergent`. -/
def insertsLoop (env : WEnv) (gen : Nat → String) (n commitEvery : Nat) :
    Nat → Table → List Ev → InsOut
  | i, t, tr =>
    if h : i < n then
      if env.beginFails i then ⟨.err .beginErr, t, tr⟩
      else
        let tr1 := tr ++ [Ev.evBegin]
        if env.prepareFails i then ⟨.err .prepareErr, t, tr1 ++ [.evRollback]⟩
        else
          let tr2 := tr1 ++ [Ev.evPrepare]
          match hb : batchLoop env gen n i commitEvery [] tr2 with
          | (some e, _, _, tr3) => ⟨.err e, t, tr3⟩
          | (none, i', pending, tr3) =>
            let tr4 := tr3 ++ [Ev.evStmtClose]
            if env.commitFails i then ⟨.err .commitErr, t, tr4⟩
            else
              if hlt : i < i' then
                insertsLoop env gen n commitEvery i' (t ++ pending) (tr4 ++ [Ev.evCommit])
              else ⟨.divergent, t, tr4 ++ [Ev.evCommit]⟩
    else ⟨.ok, t, tr⟩
  termination_by i _ _ => n - i
  decreasing_by exact Nat.sub_lt_sub_left h hlt

/-- The write workload `inserts(db, n, commitEvery, minStringSize, maxStringSize)`.
The table starts from the state left by the schema DDL (`drop … ; create …`),
i.e. empty.  `gen` models `randomString(rand.Intn(maxStringSize-minStringSize)+minStringSize)`:
the random string paired with key `i`; the size bounds only shape the
distribution of `gen` and play no role in the claims. -/
def inserts (env : WEnv) (gen : Nat → String)
    (n commitEvery _minStringSize _maxStringSize : Nat) : InsOut :=
  insertsLoop env gen n commitEvery 0 [] []

/-- Errors of the read workload: the query itself failed, or a `rows.Scan`
failed. -/
inductive SErr where
  | queryErr
  | scanErr
  deriving DecidableEq, Repr

/-- Failure oracle for the read workload: whether `db.Query` fails, and
whether the `rows.Scan` of the `k`-th cursor row fails. -/
structure REnv where
  queryFails : Bool
  scanFails : Nat → Bool

/-- A read environment in which no engine operation fails. -/
def benignREnv : REnv := ⟨false, fun _ => false⟩

/-- Output of the read workload: its returned error (if any), how many rows
were successfully scanned, whether a cursor was opened, and whether it was
closed. -/
structure SelOut where
  res : Option SErr
  rowsRead : Nat
  cursorOpened : Bool
  cursorClosed : Bool
  deriving DecidableEq, Repr

/-- The result set of `select * from t WHERE i < ?` with bound `maxValue`. -/
def queryLt (t : Table) (maxValue : Nat) : List Row :=
  t.filter (fun r => r.1 < maxValue)

/-- The cursor-draining loop of `selects`: `for rows.Next() { … rows.Scan … }`.
`k` counts the rows scanned so far; returns the first scan error and the
final count. -/
def drainRows (env : REnv) : List Row → Nat → Option SErr × Nat
  | [], k => (none, k)
  | _ :: rest, k =>
    if env.scanFails k then (some .scanErr, k) else drainRows env rest (k + 1)

/-- The read workload `selects(db, maxValue)` (`main.go` lines 249–264): run
the query (an early return on query failure opens no cursor), then drain the
cursor under `defer rows.Close()`, which closes the cursor on the scan-error
exit path and on the normal exit path alike. -/
def selects (env : REnv) (t : Table) (maxValue : Nat) : SelOut :=
  if env.queryFails then ⟨some .queryErr, 0, false, false⟩
  else
    let d := drainRows env (queryLt t maxValue) 0
    ⟨d.1, d.2, true, true⟩

/-- The storage handles of one instance: the single write handle and the
read-only handles, identified by the order in which they were opened. -/
inductive Handle where
  | writer
  | reader (j : Nat)
  deriving DecidableEq, Repr

/-- Errors `createAndTestDb` can return: temp-dir creation, opening the write
handle, the schema DDL, the write workload, or opening read-only handle `j`. -/
inductive CErr where
  | mkdirErr
  | openErr
  | schemaErr
  | insertsErr (e : IErr)
  | roOpenErr (j : Nat)
  deriving DecidableEq, Repr

/-- Result of one provisioning run: success, an error returned by
`createAndTestDb`, a process crash because reader goroutine `j` panicked on a
`selects` error, or divergence inherited from the write workload. -/
inductive CRes where
  | ok
  | err (e : CErr)
  | panicked (j : Nat)
  | divergent
  deriving DecidableEq, Repr

/-- Failure oracle for one provisioning run: `os.MkdirTemp`, the write-handle
`sql.Open`, the schema `db.Exec`, the write workload's oracle, the read-only
`sql.Open` of reader `j`, and reader `j`'s read-workload oracle. -/
structure CEnv where
  mkdirFails : Bool
  openFails : Bool
  schemaFails : Bool
  wenv : WEnv
  roOpenFails : Nat → Bool
  renv : Nat → REnv

/-- A provisioning environment in which no engine operation fails. -/
def benignCEnv : CEnv :=
  ⟨false, false, false, benignWEnv, fun _ => false, fun _ => benignREnv⟩

/-- The reader-opening loop of `createAndTestDb`:
`for i := 0; i < parallelSelects; i++ { roDb, err := sql.Open(...); ... }`.
`rem` is the number of readers still to open, `acc` the indices opened so
far.  On the first failed open the function returns that index and the
partial list (the Go code returns the error before appending). -/
def openReadersGo (env : CEnv) : Nat → Nat → List Nat → Option Nat × List Nat
  | _, 0, acc => (none, acc)
  | j, rem + 1, acc =>
    if env.roOpenFails j then (some j, acc)
    else openReadersGo env (j + 1) rem (acc ++ [j])

/-- Output of `createAndTestDb`: the result, whether the schema DDL ran, the
final committed table, the indices of the read-only handles opened, the close
bundle returned on success, and the instance's event trace. -/
structure COut where
  res : CRes
  schemaDone : Bool
  table : Table
  readers : List Nat
  bundle : Option (List Handle)
  trace : List Ev
  deriving Repr

/-- Model of `createAndTestDb(insertsN, parallelSelects)` (`main.go` lines 99–156):
make the temp dir, open the write handle, run the schema DDL (leaving an
empty table), run the write workload `inserts(db, insertsN, 100, 10, 1000)`
synchronously, then open `parallelSelects` read-only handles and run
`selects(roDb, insertsN)` on each (a reader error panics the process), and
finally return the close bundle listing the read-only handles in open order
followed by the write handle. -/
def createAndTestDb (env : CEnv) (gen : Nat → String)
    (insertsN parallelSelects : Nat) : COut :=
  if env.mkdirFails then ⟨.err .mkdirErr, false, [], [], none, []⟩
  else if env.openFails then ⟨.err .openErr, false, [], [], none, []⟩
  else if env.schemaFails then ⟨.err .schemaErr, false, [], [], none, [.evOpenWrite]⟩
  else
    let ins := insertsLoop env.wenv gen insertsN 100 0 [] [Ev.evOpenWrite, Ev.evSchema]
    match ins.res with
    | .err e => ⟨.err (.insertsErr e), true, ins.table, [], none, ins.trace⟩
    | .divergent => ⟨.divergent, true, ins.table, [], none, ins.trace⟩
    | .ok =>
      match openReadersGo env 0 parallelSelects [] with
      | (some j, opened) =>
        ⟨.err (.roOpenErr j), true, ins.table, opened, none,
          ins.trace ++ opened.map Ev.evOpenRead⟩
      | (none, opened) =>
        match opened.find? (fun j => ((selects (env.renv j) ins.table insertsN).res).isSome) with
        | some j =>
          ⟨.panicked j, true, ins.table, opened, none,
            ins.trace ++ opened.map Ev.evOpenRead⟩
        | none =>
          ⟨.ok, true, ins.table, opened,
            some (opened.map Handle.reader ++ [Handle.writer]),
            ins.trace ++ opened.map Ev.evOpenRead⟩

/-! ### Connection registry (`run`, `main.go` lines 32–64)

The driver's connection hook (lines 37–44) appends the native connection
identity to the shared `conns` slice under a mutex, once per engine-level
connection open.  Instance `d` opens `readerCount + 1` connections: its write
handle and its readers.  The ten lifecycle goroutines interleave their opens
arbitrarily, so the registry receives the `D * (R + 1)` identities in some
permutation of the canonical order. -/

/-- The body of the connection hook: append one connection identity to the
registry (`conns = append(conns, dbPtr)` under `mu`). -/
def registerConn (registry : List Nat) (h : Nat) : List Nat :=
  registry ++ [h]

/-- The connection identities opened by instance `d`: its write handle
followed by its `R` read-only handles. -/
def instanceOpens (R d : Nat) : List Nat :=
  (List.range (R + 1)).map (fun j => d * (R + 1) + j)

/-- All connection identities opened during a run of `D` instances with `R`
readers each, in the canonical instance-then-handle order. -/
def allOpens (D R : Nat) : List Nat :=
  (List.range D).flatMap (instanceOpens R)

/-! ### Shutdown (`run`, `main.go` lines 77–81, and the close bundle of
`createAndTestDb`, lines 146–155) -/

/-- Failure oracle for shutdown: whether closing handle `h` of instance `d`
fails. -/
structure ShutEnv where
  closeFails : Nat → Handle → Bool

/-- One close bundle's body: close each handle in order, returning on the
first failure (`for _, roDb := range roDbs { if err != nil { return err } }`
followed by `return db.Close()`).  Returns the failing handle, if any, and
the handles whose close was actually attempted, in order. -/
def closeSeq (fails : Handle → Bool) : List Handle → Option Handle × List Handle
  | [] => (none, [])
  | h :: rest =>
    if fails h then (some h, [h])
    else
      let r := closeSeq fails rest
      (r.1, h :: r.2)

/-- The orchestrator's shutdown loop: invoke each collected close function in
order and panic on the first error
(`for _, closeFunc := range closeFuncs { if err := closeFunc(); err != nil { panic(err) } }`).
Returns the panic cause, if any, and every `(instance, handle)` close
attempted, in order. -/
def shutdownRun (env : ShutEnv) :
    List (Nat × List Handle) → Option (Nat × Handle) × List (Nat × Handle)
  | [] => (none, [])
  | (d, hs) :: rest =>
    match closeSeq (env.closeFails d) hs with
    | (some h, att) => (some (d, h), att.map (fun x => (d, x)))
    | (none, att) =>
      let r := shutdownRun env rest
      (r.1, att.map (fun x => (d, x)) ++ r.2)

/-- The handle list of one successful instance's close bundle: the `R`
read-only handles in open order, then the write handle. -/
def bundleHandles (R : Nat) : List Handle :=
  (List.range R).map Handle.reader ++ [Handle.writer]

/-- The close bundles collected by `run` for `D` instances with `R` readers
each. -/
def fullBundles (D R : Nat) : List (Nat × List Handle) :=
  (List.range D).map (fun d => (d, bundleHandles R))

/-- Specification-side flattening of the shutdown order: every
`(instance, handle)` pair in bundle order, readers before writer within each
bundle. -/
def closeOrder (D R : Nat) : List (Nat × Handle) :=
  (List.range D).flatMap (fun d => (bundleHandles R).map (fun h => (d, h)))

/-! ### Statistics aggregation (`printSqliteMemoryUsageForAllDbs`,
`main.go` lines 158–217) -/

/-- Constant `SQLITE_DBSTATUS_LOOKASIDE_USED`. -/
def SQLITE_DBSTATUS_LOOKASIDE_USED : Int := 0
/-- Constant `SQLITE_DBSTATUS_CACHE_USED`. -/
def SQLITE_DBSTATUS_CACHE_USED : Int := 1
/-- Constant `SQLITE_DBSTATUS_SCHEMA_USED`. -/
def SQLITE_DBSTATUS_SCHEMA_USED : Int := 2
/-- Constant `SQLITE_DBSTATUS_STMT_USED`. -/
def SQLITE_DBSTATUS_STMT_USED : Int := 3
/-- Constant `SQLITE_DBSTATUS_CACHE_SPILL`. -/
def SQLITE_DBSTATUS_CACHE_SPILL : Int := 12

/-- The `ops` array queried per connection, in source order. -/
def dbstatusOps : List Int :=
  [SQLITE_DBSTATUS_CACHE_USED, SQLITE_DBSTATUS_LOOKASIDE_USED,
   SQLITE_DBSTATUS_SCHEMA_USED, SQLITE_DBSTATUS_STMT_USED,
   SQLITE_DBSTATUS_CACHE_SPILL]

/-- The Go map update `totalPerOp[op] += v`: add to an existing key's total,
or insert the key.  The map is modelled as an association list in insertion
order (Go map iteration order is unspecified; nothing proved below depends
on order beyond key multiplicity). -/
def mapAdd (m : List (Int × Int)) (k v : Int) : List (Int × Int) :=
  if m.any (fun kv => kv.1 == k) then
    m.map (fun kv => if kv.1 == k then (kv.1, kv.2 + v) else kv)
  else m ++ [(k, v)]

/-- The inner loop of the aggregator: for one connection `c`, query each of
the five status counters and add its current value into the running totals.
`status c op` models the current value written by `sqlite3_db_status`. -/
def addConnStats (status : Nat → Int → Int) (m : List (Int × Int)) (c : Nat) :
    List (Int × Int) :=
  dbstatusOps.foldl (fun m2 op => mapAdd m2 op (status c op)) m

/-- Model of `printSqliteMemoryUsageForAllDbs`: fold the per-connection pass over
every registered connection, starting from the empty `totalPerOp` map.  The
resulting association list is the StatusReport. -/
def printSqliteMemoryUsageForAllDbs (status : Nat → Int → Int)
    (conns : List Nat) : List (Int × Int) :=
  conns.foldl (addConnStats status) []

/-- A write environment whose every commit fails. -/
def commitFailWEnv : WEnv :=
  ⟨fun _ => false, fun _ => false, fun _ => false, fun _ => true⟩

/-- The flattened close order of a bundle list: every `(instance, handle)`
pair, bundle by bundle, in each bundle's own handle order. -/
def flatOrder (bs : List (Nat × List Handle)) : List (Nat × Handle) :=
  bs.flatMap (fun p => p.2.map (fun h => (p.1, h)))

/-- A shutdown environment in which only the close of instance 0's first
read-only handle fails. -/
def shutFailEnv : ShutEnv :=
  ⟨fun d h => decide (d = 0) && decide (h = Handle.reader 0)⟩

/-! ## Lemmas about the write workload -/

/-- The rows inserted for keys `i, i+1, …, i+m-1`. -/
def rowsOf (gen : Nat → String) (i m : Nat) : List Row :=
  (List.range' i m).map (fun k => (k, gen k))

theorem rowsOf_zero (gen : Nat → String) (i : Nat) : rowsOf gen i 0 = [] := rfl

theorem rowsOf_succ_left (gen : Nat → String) (i m : Nat) :
    rowsOf gen i (m + 1) = (i, gen i) :: rowsOf gen (i + 1) m := by
  simp [rowsOf, List.range'_succ]

/-- Inversion of a successful inner batch loop: the new key is between `i`
and both `i + fuel` and `n`, the pending rows grew by exactly the rows for
keys `[i, i')`, and the trace grew by exactly their execute events. -/
theorem batchLoop_none_spec (env : WEnv) (gen : Nat → String) (n : Nat) :
    ∀ (fuel i : Nat) (pending : List Row) (tr : List Ev) (i' : Nat)
      (pending' : List Row) (tr' : List Ev),
      batchLoop env gen n i fuel pending tr = (none, i', pending', tr') →
      i ≤ i' ∧ i' ≤ max i n ∧
      pending' = pending ++ rowsOf gen i (i' - i) ∧
      tr' = tr ++ (List.range' i (i' - i)).map Ev.evExec := by
  intro fuel
  induction fuel with
  | zero =>
    intro i pending tr i' pending' tr' h
    simp only [batchLoop, Prod.mk.injEq] at h
    obtain ⟨-, h2, h3, h4⟩ := h
    subst h2; subst h3; subst h4
    simp [rowsOf]
  | succ fuel ih =>
    intro i pending tr i' pending' tr' h
    simp only [batchLoop] at h
    by_cases hin : i < n
    · rw [if_pos hin] at h
      by_cases hef : env.execFails i = true
      · simp [hef] at h
      · simp only [Bool.not_eq_true] at hef
        rw [hef] at h
        simp only [Bool.false_eq_true, if_false] at h
        obtain ⟨h1, h2, h3, h4⟩ := ih (i + 1) _ _ _ _ _ h
        have hii : i ≤ i' := Nat.le_trans (Nat.le_succ i) h1
        have hk : i' - i = (i' - (i + 1)) + 1 := by omega
        refine ⟨hii, ?_, ?_, ?_⟩
        · have : i + 1 ≤ n := hin
          omega
        · rw [hk, rowsOf_succ_left, h3]
          simp
        · rw [hk, List.range'_succ, h4]
          simp
    · rw [if_neg hin] at h
      simp only [Prod.mk.injEq] at h
      obtain ⟨-, h2, h3, h4⟩ := h
      subst h2; subst h3; subst h4
      simp [rowsOf]

/-- Inversion of a failed inner batch loop: the only in-batch failure is a
bound execute, at some key `k ∈ [i, n)`; the trace records the executes of
the keys before `k`, the failing execute, the statement close, and the
rollback, in that order, and nothing after the rollback. -/
theorem batchLoop_some_spec (env : WEnv) (gen : Nat → String) (n : Nat) :
    ∀ (fuel i : Nat) (pending : List Row) (tr : List Ev) (e : IErr) (i2 : Nat)
      (p2 : List Row) (tr2 : List Ev),
      batchLoop env gen n i fuel pending tr = (some e, i2, p2, tr2) →
      ∃ k, i ≤ k ∧ k < n ∧ e = .execErr k ∧
        tr2 = tr ++ (List.range' i (k - i)).map Ev.evExec
          ++ [.evExec k, .evStmtClose, .evRollback] := by
  intro fuel
  induction fuel with
  | zero =>
    intro i pending tr e i2 p2 tr2 h
    simp [batchLoop] at h
  | succ fuel ih =>
    intro i pending tr e i2 p2 tr2 h
    simp only [batchLoop] at h
    by_cases hin : i < n
    · rw [if_pos hin] at h
      by_cases hef : env.execFails i = true
      · rw [hef] at h
        simp only [if_true, Prod.mk.injEq, Option.some.injEq] at h
        obtain ⟨he, -, -, htr⟩ := h
        refine ⟨i, Nat.le_refl i, hin, he.symm, ?_⟩
        subst htr
        simp
      · simp only [Bool.not_eq_true] at hef
        rw [hef] at h
        simp only [Bool.false_eq_true, if_false] at h
        obtain ⟨k, hk1, hk2, hk3, hk4⟩ := ih (i + 1) _ _ _ _ _ _ h
        refine ⟨k, Nat.le_trans (Nat.le_succ i) hk1, hk2, hk3, ?_⟩
        have hkk : k - i = (k - (i + 1)) + 1 := by omega
        rw [hkk, List.range'_succ, hk4]
        simp
    · rw [if_neg hin] at h
      simp [Prod.mk.injEq] at h

theorem rowsOf_append (gen : Nat → String) (i i' m : Nat) (h1 : i ≤ i')
    (h2 : i' ≤ m) :
    rowsOf gen i (i' - i) ++ rowsOf gen i' (m - i') = rowsOf gen i (m - i) := by
  unfold rowsOf
  rw [← List.map_append]
  congr 1
  have h := List.range'_append i (i' - i) (m - i') 1
  rw [show i + 1 * (i' - i) = i' by omega] at h
  rw [show m - i' + (i' - i) = m - i by omega] at h
  exact h

/-- A successful write workload leaves exactly the rows for keys
`i, …, n-1` appended to the table it started from. -/
theorem insertsLoop_ok_table (env : WEnv) (gen : Nat → String) (n ce : Nat) :
    ∀ (i : Nat) (t : Table) (tr : List Ev),
      (insertsLoop env gen n ce i t tr).res = .ok →
      (insertsLoop env gen n ce i t tr).table = t ++ rowsOf gen i (n - i) := by
  intro i t tr
  induction i, t, tr using insertsLoop.induct env gen n ce with
  | case1 i t tr hin hb =>
    rw [insertsLoop]
    simp [hin, hb]
  | case2 i t tr hin hb hp =>
    rw [insertsLoop]
    simp [hin, hb, hp]
  | case3 i t tr hin hbeg tr1 hprep tr2 e i2 p2 tr3 hbl =>
    rw [insertsLoop]
    simp only [hin, dif_pos, Bool.not_eq_true] at hbl ⊢
    rw [(Bool.not_eq_true _).mp hbeg, (Bool.not_eq_true _).mp hprep]
    simp only [Bool.false_eq_true, if_false]
    rw [hbl]
    simp
  | case4 i t tr hin hbeg tr1 hprep tr2 i' pending tr3 hbl hc =>
    rw [insertsLoop]
    simp only [hin, dif_pos] at hbl ⊢
    rw [(Bool.not_eq_true _).mp hbeg, (Bool.not_eq_true _).mp hprep]
    simp only [Bool.false_eq_true, if_false]
    rw [hbl]
    simp [hc]
  | case5 i t tr hin hbeg tr1 hprep tr2 i' pending tr3 hbl tr4 hc hlt ih =>
    rw [insertsLoop]
    simp only [hin, dif_pos] at hbl ⊢
    rw [(Bool.not_eq_true _).mp hbeg, (Bool.not_eq_true _).mp hprep]
    simp only [Bool.false_eq_true, if_false]
    rw [hbl]
    rw [(Bool.not_eq_true _).mp hc]
    simp only [Bool.false_eq_true, if_false, hlt, dif_pos]
    intro h
    obtain ⟨-, hub, hpend, -⟩ := batchLoop_none_spec env gen n ce i [] _ i' pending tr3 hbl
    rw [ih h, hpend]
    simp only [List.nil_append, List.append_assoc]
    congr 1
    exact rowsOf_append gen i i' n (by omega) (by omega)
  | case6 i t tr hin hbeg tr1 hprep tr2 i' pending tr3 hbl hc hnlt =>
    rw [insertsLoop]
    simp only [hin, dif_pos] at hbl ⊢
    rw [(Bool.not_eq_true _).mp hbeg, (Bool.not_eq_true _).mp hprep]
    simp only [Bool.false_eq_true, if_false]
    rw [hbl]
    rw [(Bool.not_eq_true _).mp hc]
    simp [hnlt]
  | case7 i t tr hin =>
    rw [insertsLoop]
    simp only [hin, dif_neg]
    intro _
    simp [rowsOf, Nat.sub_eq_zero_of_le (Nat.le_of_not_lt hin)]


theorem evExec_injective : Function.Injective Ev.evExec := by
  intro a b h
  injection h

theorem count_map_evExec (k : Nat) (l : List Nat) :
    (l.map Ev.evExec).count (Ev.evExec k) = l.count k :=
  List.count_map_of_injective l Ev.evExec evExec_injective k

theorem count_map_evExec_ne (x : Ev) (l : List Nat) (hx : ∀ k, x ≠ Ev.evExec k) :
    (l.map Ev.evExec).count x = 0 := by
  rw [List.count_eq_zero]
  intro hm
  obtain ⟨k, -, hk⟩ := List.mem_map.mp hm
  exact hx k hk.symm

theorem count_range'_le_one (s m k : Nat) : (List.range' s m).count k ≤ 1 :=
  List.nodup_iff_count_le_one.mp (List.nodup_range' s m) k

theorem count_range'_eq_zero (s m k : Nat) (h : k < s ∨ s + m ≤ k) :
    (List.range' s m).count k = 0 := by
  rw [List.count_eq_zero]
  intro hm
  rw [List.mem_range'_1] at hm
  omega


theorem getLast?_append_three {α : Type} (l : List α) (a b c : α) :
    (l ++ [a, b, c]).getLast? = some c := by
  rw [show [a, b, c] = [a, b] ++ [c] from rfl, ← List.append_assoc, List.getLast?_concat]

theorem getLast?_append_some {α : Type} (l l2 : List α) (x : α)
    (h : l2.getLast? = some x) : (l ++ l2).getLast? = some x := by
  rw [List.getLast?_append, h]
  rfl


/-- Inversion of a failed write workload, started anywhere in the loop: the
trace grows by a block `dl` in which every begun batch except the failing one
committed, a prepare or execute failure ends the block with the transaction
rollback, a commit (or begin) failure performs no rollback at all, no key is
executed twice, and the table keeps only the fully committed batches. -/
theorem insertsLoop_err_spec (env : WEnv) (gen : Nat → String) (n ce : Nat) :
    ∀ (i : Nat) (t : Table) (tr : List Ev) (e : IErr),
      (insertsLoop env gen n ce i t tr).res = .err e →
      ∃ dl m,
        (insertsLoop env gen n ce i t tr).trace = tr ++ dl ∧
        (insertsLoop env gen n ce i t tr).table = t ++ rowsOf gen i (m - i) ∧
        i ≤ m ∧ m ≤ n ∧
        ((e = .prepareErr ∨ ∃ k, e = .execErr k) →
          dl.getLast? = some .evRollback ∧ dl.count .evRollback = 1) ∧
        (e = .commitErr → dl.count .evRollback = 0 ∧ dl.getLast? = some .evStmtClose) ∧
        (e = .beginErr → dl.count .evRollback = 0) ∧
        (e ≠ .beginErr → dl.count .evBegin = dl.count .evCommit + 1) ∧
        (e = .beginErr → dl.count .evBegin = dl.count .evCommit) ∧
        (∀ k, dl.count (.evExec k) ≤ 1) ∧
        (∀ k, k < i → dl.count (.evExec k) = 0) := by
  intro i t tr
  induction i, t, tr using insertsLoop.induct env gen n ce with
  | case1 i t tr hin hbeg =>
    intro e
    rw [insertsLoop]
    simp only [hin, dif_pos, hbeg, if_true]
    intro h
    simp only [IRes.err.injEq] at h
    subst h
    refine ⟨[], i, by simp, by simp [rowsOf], Nat.le_refl i, Nat.le_of_lt hin,
      ?_, ?_, ?_, ?_, ?_, ?_, ?_⟩
    · rintro (h | ⟨k, h⟩) <;> simp at h
    · intro h; simp at h
    · intro _; simp
    · intro h; simp at h
    · intro _; simp
    · intro k; simp
    · intro k _; simp
  | case2 i t tr hin hbeg hprep =>
    intro e
    rw [insertsLoop]
    rw [(Bool.not_eq_true _).mp hbeg]
    simp only [hin, dif_pos, Bool.false_eq_true, if_false, hprep, if_true]
    intro h
    simp only [IRes.err.injEq] at h
    subst h
    refine ⟨[.evBegin, .evRollback], i, by simp, by simp [rowsOf], Nat.le_refl i,
      Nat.le_of_lt hin, ?_, ?_, ?_, ?_, ?_, ?_, ?_⟩
    · intro _; exact ⟨rfl, by simp [List.count_cons]⟩
    · intro h; simp at h
    · intro h; simp at h
    · intro _; simp [List.count_cons]
    · intro h; simp at h
    · intro k; simp [List.count_cons]
    · intro k _; simp [List.count_cons]
  | case3 i t tr hin hbeg tr1 hprep tr2 e0 i2 p2 tr3 hbl =>
    intro e
    rw [insertsLoop]
    simp only [hin, dif_pos]
    rw [(Bool.not_eq_true _).mp hbeg, (Bool.not_eq_true _).mp hprep]
    simp only [Bool.false_eq_true, if_false]
    rw [hbl]
    intro h
    simp only [IRes.err.injEq] at h
    obtain ⟨k, hik, hkn, he0, htr3⟩ :=
      batchLoop_some_spec env gen n ce i [] _ e0 i2 p2 tr3 hbl
    subst h
    subst he0
    unfold_let tr2 tr1 at htr3
    refine ⟨[Ev.evBegin, Ev.evPrepare] ++ (List.range' i (k - i)).map Ev.evExec
        ++ [.evExec k, .evStmtClose, .evRollback], i, ?_, by simp [rowsOf],
        Nat.le_refl i, Nat.le_of_lt hin, ?_, ?_, ?_, ?_, ?_, ?_, ?_⟩
    · rw [htr3]
      simp [List.append_assoc]
    · intro _
      constructor
      · exact getLast?_append_three _ _ _ _
      · have h0 : ((List.range' i (k - i)).map Ev.evExec).count Ev.evRollback = 0 :=
          count_map_evExec_ne _ _ (fun k0 hk0 => Ev.noConfusion hk0)
        simp [List.count_append, List.count_cons, h0]
    · intro hc
      exact absurd hc (by simp)
    · intro hc
      exact absurd hc (by simp)
    · intro _
      have h1 : ((List.range' i (k - i)).map Ev.evExec).count Ev.evBegin = 0 :=
        count_map_evExec_ne _ _ (fun k0 hk0 => Ev.noConfusion hk0)
      have h2 : ((List.range' i (k - i)).map Ev.evExec).count Ev.evCommit = 0 :=
        count_map_evExec_ne _ _ (fun k0 hk0 => Ev.noConfusion hk0)
      simp [List.count_append, List.count_cons, h1, h2]
    · intro hc
      exact absurd hc (by simp)
    · intro k0
      have hm : ((List.range' i (k - i)).map Ev.evExec).count (Ev.evExec k0)
          = (List.range' i (k - i)).count k0 := count_map_evExec k0 _
      rcases eq_or_ne k0 k with rfl | hne
      · have hz : (List.range' i (k0 - i)).count k0 = 0 :=
          count_range'_eq_zero _ _ _ (Or.inr (by omega))
        simp [List.count_append, List.count_cons, hm, hz]
      · have hle : (List.range' i (k - i)).count k0 ≤ 1 := count_range'_le_one _ _ _
        simp [List.count_append, List.count_cons, hm, Ev.evExec.injEq, hne]
        omega
    · intro k0 hk0
      have hm : ((List.range' i (k - i)).map Ev.evExec).count (Ev.evExec k0)
          = (List.range' i (k - i)).count k0 := count_map_evExec k0 _
      have hz : (List.range' i (k - i)).count k0 = 0 :=
        count_range'_eq_zero _ _ _ (Or.inl hk0)
      have hne : k ≠ k0 := by omega
      simp [List.count_append, List.count_cons, hm, hz, Ev.evExec.injEq, hne]
  | case4 i t tr hin hbeg tr1 hprep tr2 i' pending tr3 hbl hc =>
    intro e
    rw [insertsLoop]
    simp only [hin, dif_pos]
    rw [(Bool.not_eq_true _).mp hbeg, (Bool.not_eq_true _).mp hprep]
    simp only [Bool.false_eq_true, if_false]
    rw [hbl]
    simp only [hc, if_true]
    intro h
    simp only [IRes.err.injEq] at h
    subst h
    obtain ⟨hii', hub, hpend, htr3⟩ :=
      batchLoop_none_spec env gen n ce i [] _ i' pending tr3 hbl
    unfold_let tr2 tr1 at htr3
    refine ⟨[Ev.evBegin, Ev.evPrepare] ++ (List.range' i (i' - i)).map Ev.evExec
        ++ [.evStmtClose], i, ?_, by simp [rowsOf], Nat.le_refl i,
        Nat.le_of_lt hin, ?_, ?_, ?_, ?_, ?_, ?_, ?_⟩
    · rw [htr3]
      simp [List.append_assoc]
    · rintro (h | ⟨k, h⟩) <;> simp at h
    · intro _
      constructor
      · have h0 : ((List.range' i (i' - i)).map Ev.evExec).count Ev.evRollback = 0 :=
          count_map_evExec_ne _ _ (fun k0 hk0 => Ev.noConfusion hk0)
        simp [List.count_append, List.count_cons, h0]
      · exact List.getLast?_concat _
    · intro h; simp at h
    · intro _
      have h1 : ((List.range' i (i' - i)).map Ev.evExec).count Ev.evBegin = 0 :=
        count_map_evExec_ne _ _ (fun k0 hk0 => Ev.noConfusion hk0)
      have h2 : ((List.range' i (i' - i)).map Ev.evExec).count Ev.evCommit = 0 :=
        count_map_evExec_ne _ _ (fun k0 hk0 => Ev.noConfusion hk0)
      simp [List.count_append, List.count_cons, h1, h2]
    · intro h; simp at h
    · intro k0
      have hm : ((List.range' i (i' - i)).map Ev.evExec).count (Ev.evExec k0)
          = (List.range' i (i' - i)).count k0 := count_map_evExec k0 _
      have hle : (List.range' i (i' - i)).count k0 ≤ 1 := count_range'_le_one _ _ _
      simp [List.count_append, List.count_cons, hm]
      omega
    · intro k0 hk0
      have hm : ((List.range' i (i' - i)).map Ev.evExec).count (Ev.evExec k0)
          = (List.range' i (i' - i)).count k0 := count_map_evExec k0 _
      have hz : (List.range' i (i' - i)).count k0 = 0 :=
        count_range'_eq_zero _ _ _ (Or.inl hk0)
      simp [List.count_append, List.count_cons, hm, hz]
  | case5 i t tr hin hbeg tr1 hprep tr2 i' pending tr3 hbl tr4 hc hlt ih =>
    intro e
    rw [insertsLoop]
    simp only [hin, dif_pos]
    rw [(Bool.not_eq_true _).mp hbeg, (Bool.not_eq_true _).mp hprep]
    simp only [Bool.false_eq_true, if_false]
    rw [hbl]
    rw [(Bool.not_eq_true _).mp hc]
    simp only [Bool.false_eq_true, if_false, hlt, dif_pos]
    intro h
    obtain ⟨dl2, m, htr2, htab2, him, hmn, hpe, hcom, hbe0, hneb, hbeq, hexle, hexlt⟩ := ih e h
    obtain ⟨hii', hub, hpend, htr3⟩ :=
      batchLoop_none_spec env gen n ce i [] _ i' pending tr3 hbl
    unfold_let tr4 at htr2
    unfold_let tr2 tr1 at htr3
    have hi'n : i' ≤ n := by
      rcases Nat.max_le.mp (Nat.le_refl (max i n)) with ⟨-, -⟩
      omega
    refine ⟨[Ev.evBegin, Ev.evPrepare] ++ (List.range' i (i' - i)).map Ev.evExec
        ++ [.evStmtClose, .evCommit] ++ dl2, m, ?_, ?_, by omega, hmn,
        ?_, ?_, ?_, ?_, ?_, ?_, ?_⟩
    · rw [htr2, htr3]
      simp [List.append_assoc]
    · rw [htab2, hpend]
      simp only [List.nil_append, List.append_assoc]
      congr 1
      exact rowsOf_append gen i i' m hii' him
    · intro hx
      obtain ⟨hlast, hcnt⟩ := hpe hx
      constructor
      · exact getLast?_append_some _ _ _ hlast
      · have h0 : ((List.range' i (i' - i)).map Ev.evExec).count Ev.evRollback = 0 :=
          count_map_evExec_ne _ _ (fun k0 hk0 => Ev.noConfusion hk0)
        simp [List.count_append, List.count_cons, h0, hcnt]
    · intro hx
      obtain ⟨hcnt, hlast⟩ := hcom hx
      constructor
      · have h0 : ((List.range' i (i' - i)).map Ev.evExec).count Ev.evRollback = 0 :=
          count_map_evExec_ne _ _ (fun k0 hk0 => Ev.noConfusion hk0)
        simp [List.count_append, List.count_cons, h0, hcnt]
      · exact getLast?_append_some _ _ _ hlast
    · intro hx
      have hcnt := hbe0 hx
      have h0 : ((List.range' i (i' - i)).map Ev.evExec).count Ev.evRollback = 0 :=
        count_map_evExec_ne _ _ (fun k0 hk0 => Ev.noConfusion hk0)
      simp [List.count_append, List.count_cons, h0, hcnt]
    · intro hx
      have hcnt := hneb hx
      have h1 : ((List.range' i (i' - i)).map Ev.evExec).count Ev.evBegin = 0 :=
        count_map_evExec_ne _ _ (fun k0 hk0 => Ev.noConfusion hk0)
      have h2 : ((List.range' i (i' - i)).map Ev.evExec).count Ev.evCommit = 0 :=
        count_map_evExec_ne _ _ (fun k0 hk0 => Ev.noConfusion hk0)
      simp [List.count_append, List.count_cons, h1, h2, hcnt]
    · intro hx
      have hcnt := hbeq hx
      have h1 : ((List.range' i (i' - i)).map Ev.evExec).count Ev.evBegin = 0 :=
        count_map_evExec_ne _ _ (fun k0 hk0 => Ev.noConfusion hk0)
      have h2 : ((List.range' i (i' - i)).map Ev.evExec).count Ev.evCommit = 0 :=
        count_map_evExec_ne _ _ (fun k0 hk0 => Ev.noConfusion hk0)
      simp [List.count_append, List.count_cons, h1, h2, hcnt]
    · intro k0
      have hm0 : ((List.range' i (i' - i)).map Ev.evExec).count (Ev.evExec k0)
          = (List.range' i (i' - i)).count k0 := count_map_evExec k0 _
      rcases Nat.lt_or_ge k0 i' with h1 | h1
      · have hz := hexlt k0 h1
        have hle : (List.range' i (i' - i)).count k0 ≤ 1 := count_range'_le_one _ _ _
        simp [List.count_append, List.count_cons, hm0, hz]
        omega
      · have hz : (List.range' i (i' - i)).count k0 = 0 :=
          count_range'_eq_zero _ _ _ (Or.inr (by omega))
        have hle := hexle k0
        simp [List.count_append, List.count_cons, hm0, hz]
        omega
    · intro k0 hk0
      have hm0 : ((List.range' i (i' - i)).map Ev.evExec).count (Ev.evExec k0)
          = (List.range' i (i' - i)).count k0 := count_map_evExec k0 _
      have hz : (List.range' i (i' - i)).count k0 = 0 :=
        count_range'_eq_zero _ _ _ (Or.inl hk0)
      have hz2 := hexlt k0 (by omega)
      simp [List.count_append, List.count_cons, hm0, hz, hz2]
  | case6 i t tr hin hbeg tr1 hprep tr2 i' pending tr3 hbl hc hnlt =>
    intro e
    rw [insertsLoop]
    simp only [hin, dif_pos]
    rw [(Bool.not_eq_true _).mp hbeg, (Bool.not_eq_true _).mp hprep]
    simp only [Bool.false_eq_true, if_false]
    rw [hbl]
    rw [(Bool.not_eq_true _).mp hc]
    simp [hnlt]
  | case7 i t tr hin =>
    intro e
    rw [insertsLoop]
    simp [hin]



/-! ## Lemmas about the read workload -/

/-- Draining a cursor with no scan failures reads every row. -/
theorem drainRows_benign (env : REnv) (hs : ∀ m, env.scanFails m = false) :
    ∀ (l : List Row) (k : Nat), drainRows env l k = (none, k + l.length) := by
  intro l
  induction l with
  | nil => intro k; simp [drainRows]
  | cons r rest ih =>
    intro k
    rw [drainRows, hs k]
    simp only [Bool.false_eq_true, if_false, ih (k + 1), List.length_cons]
    congr 1
    omega

/-- Draining a cursor whose first scan failure is the `j`-th scan (counting
from the `k`-th) stops there with the scan error, having read exactly the
rows before it. -/
theorem drainRows_first_fail (env : REnv) :
    ∀ (l : List Row) (k j : Nat), j < l.length →
      (∀ m, m < j → env.scanFails (k + m) = false) →
      env.scanFails (k + j) = true →
      drainRows env l k = (some .scanErr, k + j) := by
  intro l
  induction l with
  | nil => intro k j hj; simp at hj
  | cons r rest ih =>
    intro k j hj hpre hfail
    rcases Nat.eq_zero_or_pos j with rfl | hpos
    · rw [drainRows]
      simp only [Nat.add_zero] at hfail
      simp [hfail]
    · have h0 : env.scanFails k = false := by
        have := hpre 0 hpos
        simpa using this
      rw [drainRows, h0]
      simp only [Bool.false_eq_true, if_false]
      have := ih (k + 1) (j - 1) (by simp at hj; omega)
        (fun m hm => by
          have := hpre (m + 1) (by omega)
          rwa [show k + (m + 1) = k + 1 + m by omega] at this)
        (by rwa [show k + 1 + (j - 1) = k + j by omega])
      rwa [show k + 1 + (j - 1) = k + j by omega] at this

/-! ## Lemmas about `createAndTestDb` -/

/-- Inversion of a fully successful reader-open loop: every index was
appended in order. -/
theorem openReadersGo_none_spec (env : CEnv) :
    ∀ (rem j : Nat) (acc acc2 : List Nat),
      openReadersGo env j rem acc = (none, acc2) →
      acc2 = acc ++ List.range' j rem := by
  intro rem
  induction rem with
  | zero =>
    intro j acc acc2 h
    simp only [openReadersGo, Prod.mk.injEq] at h
    simp [h.2.symm]
  | succ rem ih =>
    intro j acc acc2 h
    rw [openReadersGo] at h
    by_cases hf : env.roOpenFails j = true
    · simp [hf] at h
    · rw [(Bool.not_eq_true _).mp hf] at h
      simp only [Bool.false_eq_true, if_false] at h
      rw [ih _ _ _ h, List.range'_succ]
      simp

/-- The write workload appends no reader-open events to the trace. -/
theorem insertsLoop_no_openRead (env : WEnv) (gen : Nat → String) (n ce : Nat) :
    ∀ (i : Nat) (t : Table) (tr : List Ev) (j : Nat),
      Ev.evOpenRead j ∉ tr →
      Ev.evOpenRead j ∉ (insertsLoop env gen n ce i t tr).trace := by
  intro i t tr
  induction i, t, tr using insertsLoop.induct env gen n ce with
  | case1 i t tr hin hbeg =>
    intro j hj
    rw [insertsLoop]
    simpa [hin, hbeg] using hj
  | case2 i t tr hin hbeg hprep =>
    intro j hj
    rw [insertsLoop]
    rw [(Bool.not_eq_true _).mp hbeg]
    simp only [hin, dif_pos, Bool.false_eq_true, if_false, hprep, if_true]
    simp [hj]
  | case3 i t tr hin hbeg tr1 hprep tr2 e0 i2 p2 tr3 hbl =>
    intro j hj
    rw [insertsLoop]
    simp only [hin, dif_pos]
    rw [(Bool.not_eq_true _).mp hbeg, (Bool.not_eq_true _).mp hprep]
    simp only [Bool.false_eq_true, if_false]
    rw [hbl]
    obtain ⟨k, -, -, -, htr3⟩ :=
      batchLoop_some_spec env gen n ce i [] _ e0 i2 p2 tr3 hbl
    unfold_let tr2 tr1 at htr3
    rw [htr3]
    simp [hj, List.mem_map]
  | case4 i t tr hin hbeg tr1 hprep tr2 i' pending tr3 hbl hc =>
    intro j hj
    rw [insertsLoop]
    simp only [hin, dif_pos]
    rw [(Bool.not_eq_true _).mp hbeg, (Bool.not_eq_true _).mp hprep]
    simp only [Bool.false_eq_true, if_false]
    rw [hbl]
    simp only [hc, if_true]
    obtain ⟨-, -, -, htr3⟩ :=
      batchLoop_none_spec env gen n ce i [] _ i' pending tr3 hbl
    unfold_let tr2 tr1 at htr3
    rw [htr3]
    simp [hj, List.mem_map]
  | case5 i t tr hin hbeg tr1 hprep tr2 i' pending tr3 hbl tr4 hc hlt ih =>
    intro j hj
    rw [insertsLoop]
    simp only [hin, dif_pos]
    rw [(Bool.not_eq_true _).mp hbeg, (Bool.not_eq_true _).mp hprep]
    simp only [Bool.false_eq_true, if_false]
    rw [hbl]
    rw [(Bool.not_eq_true _).mp hc]
    simp only [Bool.false_eq_true, if_false, hlt, dif_pos]
    apply ih
    obtain ⟨-, -, -, htr3⟩ :=
      batchLoop_none_spec env gen n ce i [] _ i' pending tr3 hbl
    unfold_let tr2 tr1 at htr3
    unfold_let tr4
    rw [htr3]
    simp [hj, List.mem_map]
  | case6 i t tr hin hbeg tr1 hprep tr2 i' pending tr3 hbl hc hnlt =>
    intro j hj
    rw [insertsLoop]
    simp only [hin, dif_pos]
    rw [(Bool.not_eq_true _).mp hbeg, (Bool.not_eq_true _).mp hprep]
    simp only [Bool.false_eq_true, if_false]
    rw [hbl]
    rw [(Bool.not_eq_true _).mp hc]
    simp only [Bool.false_eq_true, if_false, hnlt, dif_neg]
    obtain ⟨-, -, -, htr3⟩ :=
      batchLoop_none_spec env gen n ce i [] _ i' pending tr3 hbl
    unfold_let tr2 tr1 at htr3
    rw [htr3]
    simp [hj, List.mem_map]
  | case7 i t tr hin =>
    intro j hj
    rw [insertsLoop]
    simpa [hin] using hj

/-- An element of the left part of an append that does not occur in the right
part sits at an index below the split. -/
theorem get_append_lt_of_not_mem_right {α : Type} (A B : List α) (x : α)
    (hx : x ∉ B) (p : Nat) (hp : p < (A ++ B).length)
    (h : (A ++ B).get ⟨p, hp⟩ = x) : p < A.length := by
  by_contra hge
  push_neg at hge
  have hlen : p - A.length < B.length := by
    simp only [List.length_append] at hp
    omega
  have heq : (A ++ B).get ⟨p, hp⟩ = B.get ⟨p - A.length, hlen⟩ := by
    simp only [List.get_eq_getElem]
    exact List.getElem_append_right hge
  apply hx
  rw [← h, heq]
  exact B.get_mem _ _

/-- An element of the right part of an append that does not occur in the left
part sits at an index at or past the split. -/
theorem get_append_ge_of_not_mem_left {α : Type} (A B : List α) (x : α)
    (hx : x ∉ A) (q : Nat) (hq : q < (A ++ B).length)
    (h : (A ++ B).get ⟨q, hq⟩ = x) : A.length ≤ q := by
  by_contra hlt
  push_neg at hlt
  have heq : (A ++ B).get ⟨q, hq⟩ = A.get ⟨q, hlt⟩ := by
    simp only [List.get_eq_getElem]
    exact List.getElem_append_left hlt
  apply hx
  rw [← h, heq]
  exact A.get_mem _ _

/-- In a trace `A ++ B` where `A` holds no reader-open event and `B` holds no
commit event, every commit index precedes every reader-open index. -/
theorem commit_before_openRead_split (A B : List Ev)
    (hA : ∀ j, Ev.evOpenRead j ∉ A) (hB : Ev.evCommit ∉ B) :
    ∀ (p q j : Nat) (hp : p < (A ++ B).length) (hq : q < (A ++ B).length),
      (A ++ B).get ⟨p, hp⟩ = .evCommit → (A ++ B).get ⟨q, hq⟩ = .evOpenRead j →
      p < q := by
  intro p q j hp hq hcp hcq
  have h1 : p < A.length := get_append_lt_of_not_mem_right A B _ hB p hp hcp
  have h2 : A.length ≤ q := get_append_ge_of_not_mem_left A B _ (hA j) q hq hcq
  omega


/-- Inversion of a successful provision: the schema ran, the table holds
exactly the rows for keys `0 ... n-1`, all `R` readers were opened in order,
and the close bundle lists the readers in open order followed by the
writer. -/
theorem createAndTestDb_ok_spec (env : CEnv) (gen : Nat → String) (n R : Nat)
    (hok : (createAndTestDb env gen n R).res = .ok) :
    (createAndTestDb env gen n R).table = rowsOf gen 0 n ∧
    (createAndTestDb env gen n R).readers = List.range R ∧
    (createAndTestDb env gen n R).bundle
      = some ((List.range R).map Handle.reader ++ [Handle.writer]) ∧
    (createAndTestDb env gen n R).schemaDone = true := by
  unfold createAndTestDb at hok ⊢
  by_cases h1 : env.mkdirFails = true
  · simp [h1] at hok
  · rw [(Bool.not_eq_true _).mp h1] at hok ⊢
    simp only [Bool.false_eq_true, if_false] at hok ⊢
    by_cases h2 : env.openFails = true
    · simp [h2] at hok
    · rw [(Bool.not_eq_true _).mp h2] at hok ⊢
      simp only [Bool.false_eq_true, if_false] at hok ⊢
      by_cases h3 : env.schemaFails = true
      · simp [h3] at hok
      · rw [(Bool.not_eq_true _).mp h3] at hok ⊢
        simp only [Bool.false_eq_true, if_false] at hok ⊢
        rcases hres : (insertsLoop env.wenv gen n 100 0 [] [Ev.evOpenWrite, Ev.evSchema]).res
          with _ | e | _
        · rcases hro : openReadersGo env 0 R [] with ⟨o, opened⟩
          rcases o with _ | j
          · rcases hf : opened.find? (fun j =>
                ((selects (env.renv j) (insertsLoop env.wenv gen n 100 0 []
                  [Ev.evOpenWrite, Ev.evSchema]).table n).res).isSome) with _ | j
            · simp only [hres, hro, hf] at hok ⊢
              have hop : opened = List.range R := by
                rw [openReadersGo_none_spec env R 0 [] opened hro]
                simp [List.range_eq_range']
              subst hop
              have htab := insertsLoop_ok_table env.wenv gen n 100 0 [] _ hres
              simp only [Nat.sub_zero, List.nil_append] at htab
              simp [htab]
            · simp only [hres, hro, hf] at hok
              simp at hok
          · simp only [hres, hro] at hok
            simp at hok
        · simp only [hres] at hok
          simp at hok
        · simp only [hres] at hok
          simp at hok

/-- The trace of one provisioning run splits into a prefix without
reader-open events (temp dir, write-handle open, schema, write workload) and
a suffix without commit events (the reader opens). -/
theorem createAndTestDb_trace_split (env : CEnv) (gen : Nat → String) (n R : Nat) :
    ∃ A B, (createAndTestDb env gen n R).trace = A ++ B ∧
      (∀ j, Ev.evOpenRead j ∉ A) ∧ Ev.evCommit ∉ B := by
  have hins : ∀ j, Ev.evOpenRead j ∉
      (insertsLoop env.wenv gen n 100 0 [] [Ev.evOpenWrite, Ev.evSchema]).trace := by
    intro j
    exact insertsLoop_no_openRead env.wenv gen n 100 0 [] _ j (by simp)
  unfold createAndTestDb
  by_cases h1 : env.mkdirFails = true
  · exact ⟨[], [], by simp [h1], by simp, by simp⟩
  · rw [(Bool.not_eq_true _).mp h1]
    simp only [Bool.false_eq_true, if_false]
    by_cases h2 : env.openFails = true
    · exact ⟨[], [], by simp [h2], by simp, by simp⟩
    · rw [(Bool.not_eq_true _).mp h2]
      simp only [Bool.false_eq_true, if_false]
      by_cases h3 : env.schemaFails = true
      · exact ⟨[Ev.evOpenWrite], [], by simp [h3], by simp, by simp⟩
      · rw [(Bool.not_eq_true _).mp h3]
        simp only [Bool.false_eq_true, if_false]
        rcases hres : (insertsLoop env.wenv gen n 100 0 [] [Ev.evOpenWrite, Ev.evSchema]).res
          with _ | e | _
        · rcases hro : openReadersGo env 0 R [] with ⟨o, opened⟩
          rcases o with _ | j
          · rcases hf : opened.find? (fun j =>
                ((selects (env.renv j) (insertsLoop env.wenv gen n 100 0 []
                  [Ev.evOpenWrite, Ev.evSchema]).table n).res).isSome) with _ | j
            · refine ⟨_, opened.map Ev.evOpenRead, ?_, hins, ?_⟩
              · simp only [hres, hro, hf]
              · simp [List.mem_map]
            · refine ⟨_, opened.map Ev.evOpenRead, ?_, hins, ?_⟩
              · simp only [hres, hro, hf]
              · simp [List.mem_map]
          · refine ⟨_, opened.map Ev.evOpenRead, ?_, hins, ?_⟩
            · simp only [hres, hro]
            · simp [List.mem_map]
        · refine ⟨_, [], by simp only [hres]; simp, hins, by simp⟩
        · refine ⟨_, [], by simp only [hres]; simp, hins, by simp⟩


/-- C1: after a successful provision that populated `writeRowCount` rows, a
read workload with `upperBound = writeRowCount + 1` against any reader handle
of the instance returns exactly `writeRowCount` rows and no error. -/
theorem c1_reader_returns_all_rows (env : CEnv) (gen : Nat → String) (n R : Nat)
    (renv : REnv) (hok : (createAndTestDb env gen n R).res = .ok)
    (hq : renv.queryFails = false) (hs : ∀ k, renv.scanFails k = false) :
    ∀ j ∈ (createAndTestDb env gen n R).readers,
      (selects renv (createAndTestDb env gen n R).table (n + 1)).res = none ∧
      (selects renv (createAndTestDb env gen n R).table (n + 1)).rowsRead = n := by
  intro j hj
  obtain ⟨htab, -, -, -⟩ := createAndTestDb_ok_spec env gen n R hok
  rw [htab]
  have hfilter : queryLt (rowsOf gen 0 n) (n + 1) = rowsOf gen 0 n := by
    unfold queryLt
    rw [List.filter_eq_self]
    intro r hr
    obtain ⟨k, hk, rfl⟩ := List.mem_map.mp hr
    rw [List.mem_range'_1] at hk
    simp only [decide_eq_true_eq]
    omega
  unfold selects
  rw [hq]
  simp only [Bool.false_eq_true, if_false]
  rw [hfilter, drainRows_benign renv hs]
  simp [rowsOf]

/-- C1 witness: the concrete instance with 2 rows and 1 reader. -/
theorem c1_witness :
    (createAndTestDb benignCEnv (fun _ => "s") 2 1).res = .ok ∧
    benignREnv.queryFails = false ∧
    (∀ k, benignREnv.scanFails k = false) ∧
    ∀ j ∈ (createAndTestDb benignCEnv (fun _ => "s") 2 1).readers,
      (selects benignREnv (createAndTestDb benignCEnv (fun _ => "s") 2 1).table (2 + 1)).res = none ∧
      (selects benignREnv (createAndTestDb benignCEnv (fun _ => "s") 2 1).table (2 + 1)).rowsRead = 2 := by
  have hok : (createAndTestDb benignCEnv (fun _ => "s") 2 1).res = .ok := by
    simp [createAndTestDb, benignCEnv, benignWEnv, benignREnv, insertsLoop, batchLoop,
      openReadersGo, selects, queryLt, drainRows]
  exact ⟨hok, rfl, fun k => rfl,
    c1_reader_returns_all_rows benignCEnv (fun _ => "s") 2 1 benignREnv hok rfl (fun k => rfl)⟩


/-- Draining a cursor with no scan failure among its rows reads every row. -/
theorem drainRows_ok_of (env : REnv) :
    ∀ (l : List Row) (k : Nat),
      (∀ m, m < l.length → env.scanFails (k + m) = false) →
      drainRows env l k = (none, k + l.length) := by
  intro l
  induction l with
  | nil => intro k _; simp [drainRows]
  | cons r rest ih =>
    intro k hall
    have h0 : env.scanFails k = false := by simpa using hall 0 (by simp)
    rw [drainRows, h0]
    simp only [Bool.false_eq_true, if_false]
    rw [ih (k + 1) (fun m hm => by
      have := hall (m + 1) (by simpa using Nat.succ_lt_succ hm)
      rwa [show k + (m + 1) = k + 1 + m by omega] at this)]
    simp only [List.length_cons]
    congr 1
    omega

/-- C4: `selects` closes its cursor on every exit path on which one was
opened, reports the query error without opening a cursor, returns the first
scan error having read exactly the rows before it, and returns none after
reading every row when no scan fails. -/
theorem c4_selects_cursor_discipline (env : REnv) (t : Table) (mv : Nat) :
    ((selects env t mv).cursorOpened = true → (selects env t mv).cursorClosed = true) ∧
    (env.queryFails = true →
      (selects env t mv).res = some .queryErr ∧
      (selects env t mv).cursorOpened = false) ∧
    (env.queryFails = false →
      ((∀ k, k < (queryLt t mv).length → env.scanFails k = false) →
        (selects env t mv).res = none ∧
        (selects env t mv).rowsRead = (queryLt t mv).length) ∧
      (∀ j, j < (queryLt t mv).length → env.scanFails j = true →
        (∀ m, m < j → env.scanFails m = false) →
        (selects env t mv).res = some .scanErr ∧
        (selects env t mv).rowsRead = j)) := by
  unfold selects
  by_cases hq : env.queryFails = true
  · simp [hq]
  · rw [(Bool.not_eq_true _).mp hq]
    simp only [Bool.false_eq_true, if_false]
    refine ⟨?_, ?_, fun _ => ⟨?_, ?_⟩⟩
    · intro _
      trivial
    · intro hcontra
      simp at hcontra
    · intro hall
      rw [drainRows_ok_of env (queryLt t mv) 0 (fun m hm => by simpa using hall m hm)]
      simp
    · intro j hj hfail hpre
      rw [drainRows_first_fail env (queryLt t mv) 0 j hj
        (fun m hm => by simpa using hpre m hm) (by simpa using hfail)]
      simp

/-- C4 witness: a three-row cursor whose second scan fails. -/
theorem c4_witness :
    (selects ⟨false, fun k => decide (k = 1)⟩ [(0, "a"), (1, "b"), (2, "c")] 3).res
      = some .scanErr ∧
    (selects ⟨false, fun k => decide (k = 1)⟩ [(0, "a"), (1, "b"), (2, "c")] 3).rowsRead = 1 ∧
    (selects ⟨false, fun k => decide (k = 1)⟩ [(0, "a"), (1, "b"), (2, "c")] 3).cursorClosed
      = true := by
  obtain ⟨h1, -, h3⟩ :=
    c4_selects_cursor_discipline ⟨false, fun k => decide (k = 1)⟩
      [(0, "a"), (1, "b"), (2, "c")] 3
  obtain ⟨-, hfail⟩ := h3 rfl
  obtain ⟨hres, hrows⟩ := hfail 1 (by decide) (by decide) (by decide)
  exact ⟨hres, hrows, h1 (by decide)⟩

/-- C5: within one instance, every write-transaction commit event occurs in
the trace strictly before every reader-open event: readers are opened only
after the write workload has fully committed. -/
theorem c5_commits_before_reader_opens (env : CEnv) (gen : Nat → String)
    (n R : Nat) :
    ∀ p q j, (createAndTestDb env gen n R).trace.get? p = some .evCommit →
      (createAndTestDb env gen n R).trace.get? q = some (.evOpenRead j) →
      p < q := by
  intro p q j hcp hcq
  obtain ⟨A, B, hsplit, hA, hB⟩ := createAndTestDb_trace_split env gen n R
  rw [hsplit] at hcp hcq
  obtain ⟨hp, hgp⟩ := List.get?_eq_some.mp hcp
  obtain ⟨hq, hgq⟩ := List.get?_eq_some.mp hcq
  exact commit_before_openRead_split A B hA hB p q j hp hq hgp hgq

/-- C5 witness: with one row and one reader, the commit sits at index 6 and
the reader open at index 7. -/
theorem c5_witness :
    (createAndTestDb benignCEnv (fun _ => "s") 1 1).trace.get? 6 = some .evCommit ∧
    (createAndTestDb benignCEnv (fun _ => "s") 1 1).trace.get? 7 = some (.evOpenRead 0) ∧
    6 < 7 := by
  have h1 : (createAndTestDb benignCEnv (fun _ => "s") 1 1).trace.get? 6 = some .evCommit := by
    simp [createAndTestDb, benignCEnv, benignWEnv, benignREnv, insertsLoop, batchLoop,
      openReadersGo, selects, queryLt, drainRows]
  have h2 : (createAndTestDb benignCEnv (fun _ => "s") 1 1).trace.get? 7
      = some (.evOpenRead 0) := by
    simp [createAndTestDb, benignCEnv, benignWEnv, benignREnv, insertsLoop, batchLoop,
      openReadersGo, selects, queryLt, drainRows]
  exact ⟨h1, h2, c5_commits_before_reader_opens benignCEnv (fun _ => "s") 1 1 6 7 0 h1 h2⟩

/-- C8: a successful provision returns a close bundle holding exactly
`readerCount + 1` handles: the `readerCount` read-only handles in open order
followed by the single write handle. -/
theorem c8_bundle_captures_all_handles (env : CEnv) (gen : Nat → String)
    (n R : Nat) (hok : (createAndTestDb env gen n R).res = .ok) :
    (createAndTestDb env gen n R).bundle
      = some ((List.range R).map Handle.reader ++ [Handle.writer]) ∧
    ∃ l, (createAndTestDb env gen n R).bundle = some l ∧ l.length = R + 1 := by
  obtain ⟨-, -, hbun, -⟩ := createAndTestDb_ok_spec env gen n R hok
  exact ⟨hbun, _, hbun, by simp⟩

/-- C8 witness: three readers give a bundle of four handles. -/
theorem c8_witness :
    (createAndTestDb benignCEnv (fun _ => "s") 0 3).res = .ok ∧
    (createAndTestDb benignCEnv (fun _ => "s") 0 3).bundle
      = some ((List.range 3).map Handle.reader ++ [Handle.writer]) ∧
    ∃ l, (createAndTestDb benignCEnv (fun _ => "s") 0 3).bundle = some l ∧
      l.length = 3 + 1 := by
  have hok : (createAndTestDb benignCEnv (fun _ => "s") 0 3).res = .ok := by
    simp [createAndTestDb, benignCEnv, benignWEnv, benignREnv, insertsLoop, batchLoop,
      openReadersGo, selects, queryLt, drainRows]
  obtain ⟨h1, h2⟩ := c8_bundle_captures_all_handles benignCEnv (fun _ => "s") 0 3 hok
  exact ⟨hok, h1, h2⟩

/-- C9: a successful provision with `writeRowCount = 0` still runs the schema
DDL and yields a valid empty instance: any scan with a positive upper bound
returns 0 rows and no error. -/
theorem c9_zero_rows_still_queryable (env : CEnv) (gen : Nat → String)
    (R : Nat) (renv : REnv) (ub : Nat)
    (hok : (createAndTestDb env gen 0 R).res = .ok)
    (hq : renv.queryFails = false) (hub : 0 < ub) :
    (createAndTestDb env gen 0 R).schemaDone = true ∧
    (createAndTestDb env gen 0 R).table = [] ∧
    (selects renv (createAndTestDb env gen 0 R).table ub).res = none ∧
    (selects renv (createAndTestDb env gen 0 R).table ub).rowsRead = 0 := by
  obtain ⟨htab, -, -, hschema⟩ := createAndTestDb_ok_spec env gen 0 R hok
  have htab0 : (createAndTestDb env gen 0 R).table = [] := by
    simpa [rowsOf] using htab
  refine ⟨hschema, htab0, ?_, ?_⟩ <;>
    rw [htab0] <;> unfold selects <;> rw [hq] <;> simp [queryLt, drainRows]

/-- C9 witness: one reader, upper bound 5. -/
theorem c9_witness :
    (createAndTestDb benignCEnv (fun _ => "s") 0 1).res = .ok ∧ 0 < 5 ∧
    (createAndTestDb benignCEnv (fun _ => "s") 0 1).table = [] ∧
    (selects benignREnv (createAndTestDb benignCEnv (fun _ => "s") 0 1).table 5).res = none ∧
    (selects benignREnv (createAndTestDb benignCEnv (fun _ => "s") 0 1).table 5).rowsRead
      = 0 := by
  have hok : (createAndTestDb benignCEnv (fun _ => "s") 0 1).res = .ok := by
    simp [createAndTestDb, benignCEnv, benignWEnv, benignREnv, insertsLoop, batchLoop,
      openReadersGo, selects, queryLt, drainRows]
  obtain ⟨-, h2, h3, h4⟩ :=
    c9_zero_rows_still_queryable benignCEnv (fun _ => "s") 1 benignREnv 5 hok rfl
      (by decide)
  exact ⟨hok, by decide, h2, h3, h4⟩

/-- C10: a successful write workload inserts the integer keys
`0, 1, …, n-1`, each exactly once, so the harness readers' scans with
`upperBound = n` still see all `n` rows. -/
theorem c10_keys_are_exactly_range (env : WEnv) (gen : Nat → String)
    (n ce a b : Nat) (hok : (inserts env gen n ce a b).res = .ok) :
    (inserts env gen n ce a b).table.map Prod.fst = List.range n ∧
    (∀ k, ((inserts env gen n ce a b).table.map Prod.fst).count k
        = if k < n then 1 else 0) ∧
    (selects benignREnv (inserts env gen n ce a b).table n).res = none ∧
    (selects benignREnv (inserts env gen n ce a b).table n).rowsRead = n := by
  have htab := insertsLoop_ok_table env gen n ce 0 [] [] hok
  simp only [Nat.sub_zero, List.nil_append] at htab
  unfold inserts
  rw [htab]
  have hkeys : (rowsOf gen 0 n).map Prod.fst = List.range n := by
    have hcomp : (Prod.fst ∘ fun k : Nat => (k, gen k)) = id := rfl
    rw [rowsOf, List.map_map, hcomp, List.map_id, List.range_eq_range']
  refine ⟨hkeys, ?_, ?_, ?_⟩
  · intro k
    rw [hkeys]
    by_cases hk : k < n
    · simp only [hk, if_true]
      exact List.count_eq_one_of_mem (List.nodup_range n) (List.mem_range.mpr hk)
    · simp only [hk, if_false]
      rw [List.count_eq_zero]
      simpa using hk
  · have hfilter : queryLt (rowsOf gen 0 n) n = rowsOf gen 0 n := by
      unfold queryLt
      rw [List.filter_eq_self]
      intro r hr
      obtain ⟨k, hk, rfl⟩ := List.mem_map.mp hr
      rw [List.mem_range'_1] at hk
      simp only [decide_eq_true_eq]
      omega
    unfold selects benignREnv
    simp only [Bool.false_eq_true, if_false]
    rw [hfilter, drainRows_benign ⟨false, fun _ => false⟩ (fun _ => rfl)]
  · have hfilter : queryLt (rowsOf gen 0 n) n = rowsOf gen 0 n := by
      unfold queryLt
      rw [List.filter_eq_self]
      intro r hr
      obtain ⟨k, hk, rfl⟩ := List.mem_map.mp hr
      rw [List.mem_range'_1] at hk
      simp only [decide_eq_true_eq]
      omega
    unfold selects benignREnv
    simp only [Bool.false_eq_true, if_false]
    rw [hfilter, drainRows_benign ⟨false, fun _ => false⟩ (fun _ => rfl)]
    simp [rowsOf]

/-- C10 witness: two rows. -/
theorem c10_witness :
    (inserts benignWEnv (fun _ => "x") 2 100 10 1000).res = .ok ∧
    (inserts benignWEnv (fun _ => "x") 2 100 10 1000).table.map Prod.fst = List.range 2 ∧
    (selects benignREnv (inserts benignWEnv (fun _ => "x") 2 100 10 1000).table 2).rowsRead
      = 2 := by
  have hok : (inserts benignWEnv (fun _ => "x") 2 100 10 1000).res = .ok := by
    simp [inserts, benignWEnv, insertsLoop, batchLoop]
  obtain ⟨h1, -, -, h3⟩ :=
    c10_keys_are_exactly_range benignWEnv (fun _ => "x") 2 100 10 1000 hok
  exact ⟨hok, h1, h3⟩



/-- C3 counterexample: when the commit of the first batch fails, `inserts`
returns the commit error but never invokes rollback — the claim's
"any failure of … commit causes the batch's transaction to be rolled back"
is false at this input. -/
theorem c3_counterexample :
    (inserts commitFailWEnv (fun _ => "s") 1 100 10 1000).res = .err .commitErr ∧
    Ev.evRollback ∉ (inserts commitFailWEnv (fun _ => "s") 1 100 10 1000).trace ∧
    (inserts commitFailWEnv (fun _ => "s") 1 100 10 1000).trace.count .evRollback = 0 := by
  have h : inserts commitFailWEnv (fun _ => "s") 1 100 10 1000
      = ⟨.err .commitErr, [],
         [.evBegin, .evPrepare, .evExec 0, .evStmtClose]⟩ := by
    simp [inserts, insertsLoop, batchLoop, commitFailWEnv]
  rw [h]
  refine ⟨rfl, by decide, by decide⟩

/-- C3 (amended): on any failure the write workload stops immediately with
the error: a prepare or bound-execute failure rolls the batch back (the
trace ends at the rollback, which happens exactly once); a commit failure
returns immediately with no rollback (the trace ends at the statement
close); in all non-begin failures every earlier batch committed and the
failing batch is the last one begun; no key is executed twice; and the table
keeps exactly the keys of the fully committed batches. -/
theorem c3_batch_failure_aborts (env : WEnv) (gen : Nat → String)
    (n ce a b : Nat) (e : IErr)
    (herr : (inserts env gen n ce a b).res = .err e) :
    ∃ m, m ≤ n ∧ (inserts env gen n ce a b).table = rowsOf gen 0 m ∧
    ((e = .prepareErr ∨ ∃ k, e = .execErr k) →
      (inserts env gen n ce a b).trace.getLast? = some .evRollback ∧
      (inserts env gen n ce a b).trace.count .evRollback = 1) ∧
    (e = .commitErr →
      (inserts env gen n ce a b).trace.count .evRollback = 0 ∧
      (inserts env gen n ce a b).trace.getLast? = some .evStmtClose) ∧
    (e ≠ .beginErr →
      (inserts env gen n ce a b).trace.count .evBegin
        = (inserts env gen n ce a b).trace.count .evCommit + 1) ∧
    (∀ k, (inserts env gen n ce a b).trace.count (.evExec k) ≤ 1) := by
  obtain ⟨dl, m, htr, htab, -, hmn, hpe, hcom, -, hneb, -, hexle, -⟩ :=
    insertsLoop_err_spec env gen n ce 0 [] [] e herr
  simp only [List.nil_append] at htr
  unfold inserts
  rw [htr]
  refine ⟨m, hmn, ?_, hpe, hcom, hneb, hexle⟩
  have h2 : (insertsLoop env gen n ce 0 [] []).table = [] ++ rowsOf gen 0 (m - 0) := htab
  simpa using h2

/-- C3 witness: an execute failure at key 1 rolls back and stops. -/
theorem c3_witness :
    (inserts ⟨fun _ => false, fun _ => false, fun k => decide (k = 1), fun _ => false⟩
        (fun _ => "s") 3 100 10 1000).res = .err (.execErr 1) ∧
    (inserts ⟨fun _ => false, fun _ => false, fun k => decide (k = 1), fun _ => false⟩
        (fun _ => "s") 3 100 10 1000).trace.getLast? = some .evRollback ∧
    (inserts ⟨fun _ => false, fun _ => false, fun k => decide (k = 1), fun _ => false⟩
        (fun _ => "s") 3 100 10 1000).trace.count .evRollback = 1 := by
  have herr : (inserts ⟨fun _ => false, fun _ => false, fun k => decide (k = 1),
      fun _ => false⟩ (fun _ => "s") 3 100 10 1000).res = .err (.execErr 1) := by
    simp [inserts, insertsLoop, batchLoop]
  obtain ⟨m, -, -, hpe, -, -, -⟩ :=
    c3_batch_failure_aborts ⟨fun _ => false, fun _ => false, fun k => decide (k = 1),
      fun _ => false⟩ (fun _ => "s") 3 100 10 1000 (.execErr 1) herr
  obtain ⟨h1, h2⟩ := hpe (Or.inr ⟨1, rfl⟩)
  exact ⟨herr, h1, h2⟩



/-- If some element satisfies `p`, taking while `!p` stops strictly early. -/
theorem takeWhile_length_ne_of_find? {α : Type} (p : α → Bool) (l : List α)
    (x : α) (h : l.find? p = some x) :
    (l.takeWhile (fun a => !p a)).length ≠ l.length := by
  intro hlen
  have hpre := List.takeWhile_prefix (l := l) (p := fun a => !p a)
  have heq : l.takeWhile (fun a => !p a) = l := List.IsPrefix.eq_of_length hpre hlen
  have hall := List.takeWhile_eq_self_iff.mp heq
  have hnone : l.find? p = none := List.find?_eq_none.mpr (by
    intro a ha hpa
    have := hall a ha
    simp [hpa] at this)
  rw [hnone] at h
  cases h

/-- One bundle's close loop equals its specification: the first failing
handle, and the attempted closes are the passing prefix plus the failing
handle, or the whole bundle when nothing fails. -/
theorem closeSeq_spec (fails : Handle → Bool) :
    ∀ hs : List Handle,
      closeSeq fails hs
        = (hs.find? fails,
           match hs.find? fails with
           | none => hs
           | some h => hs.takeWhile (fun x => !fails x) ++ [h]) := by
  intro hs
  induction hs with
  | nil => simp [closeSeq]
  | cons h rest ih =>
    by_cases hf : fails h = true
    · rw [closeSeq]
      simp [hf, List.find?_cons_of_pos, List.takeWhile_cons]
    · rw [closeSeq]
      simp only [hf, Bool.false_eq_true, if_false]
      rw [ih]
      rw [List.find?_cons_of_neg _ hf]
      rcases hfr : rest.find? fails with _ | x
      · simp [List.takeWhile_cons, hf]
      · simp [List.takeWhile_cons, hf]

/-- The orchestrator's shutdown loop equals its specification over the
flattened close order: it stops at the first failing close, attempting
exactly the passing prefix plus the failing close, or closes everything when
nothing fails. -/
theorem shutdownRun_spec (env : ShutEnv) :
    ∀ bs : List (Nat × List Handle),
      shutdownRun env bs
        = ((flatOrder bs).find? (fun q => env.closeFails q.1 q.2),
           match (flatOrder bs).find? (fun q => env.closeFails q.1 q.2) with
           | none => flatOrder bs
           | some p =>
             (flatOrder bs).takeWhile (fun q => !env.closeFails q.1 q.2) ++ [p]) := by
  intro bs
  induction bs with
  | nil => simp [shutdownRun, flatOrder]
  | cons b rest ih =>
    obtain ⟨d, hs⟩ := b
    have hfo : flatOrder ((d, hs) :: rest)
        = hs.map (fun h => (d, h)) ++ flatOrder rest := by
      simp [flatOrder]
    have hcomp : ((fun q : Nat × Handle => env.closeFails q.1 q.2)
        ∘ (fun h => (d, h))) = env.closeFails d := rfl
    have hcomp2 : ((fun q : Nat × Handle => !env.closeFails q.1 q.2)
        ∘ (fun h => (d, h))) = fun x => !env.closeFails d x := rfl
    rw [shutdownRun, closeSeq_spec, hfo, List.find?_append, List.find?_map, hcomp]
    rcases hfd : hs.find? (env.closeFails d) with _ | h
    · simp only [Option.map_none', Option.none_or]
      rw [ih]
      have hall : hs.takeWhile (fun x => !env.closeFails d x) = hs := by
        rw [List.takeWhile_eq_self_iff]
        intro x hx
        have := List.find?_eq_none.mp hfd x hx
        simpa using this
      rcases hfr : (flatOrder rest).find? (fun q => env.closeFails q.1 q.2) with _ | p
      · rw [hfr]
      · rw [hfr]
        simp only
        congr 1
        rw [List.takeWhile_append, List.takeWhile_map, hcomp2, hall]
        simp [List.append_assoc]
    · simp only [Option.map_some', Option.or_some]
      congr 1
      rw [List.takeWhile_append, List.takeWhile_map, hcomp2]
      rw [if_neg (by
        rw [List.length_map, List.length_map]
        exact takeWhile_length_ne_of_find? (env.closeFails d) hs h hfd)]
      simp [List.map_append]



/-- C2 counterexample: with two bundles of one reader each and the very
first close failing, the orchestrator panics at once: the writer of the
failing bundle and the entire second bundle are never attempted, so neither
"attempts every collected CloseBundle" nor "does not prevent attempting the
remaining closes within a bundle" holds. -/
theorem c2_counterexample :
    (shutdownRun shutFailEnv (fullBundles 2 1)).1 = some (0, .reader 0) ∧
    (shutdownRun shutFailEnv (fullBundles 2 1)).2 = [(0, .reader 0)] ∧
    (0, Handle.writer) ∉ (shutdownRun shutFailEnv (fullBundles 2 1)).2 ∧
    (1, Handle.reader 0) ∉ (shutdownRun shutFailEnv (fullBundles 2 1)).2 ∧
    (1, Handle.writer) ∉ (shutdownRun shutFailEnv (fullBundles 2 1)).2 := by
  decide

/-- C2 (amended): on shutdown the orchestrator invokes the close bundles in
order, readers before writer inside each bundle, and panics on the first
close error: the attempted closes are exactly the passing prefix of the
flattened close order plus the failing close itself — the rest of that
bundle and all later bundles are never attempted — and when no close fails
every handle of every bundle is closed. -/
theorem c2_shutdown_stops_at_first_close_error (env : ShutEnv) (D R : Nat) :
    (shutdownRun env (fullBundles D R)).1
      = (closeOrder D R).find? (fun q => env.closeFails q.1 q.2) ∧
    (shutdownRun env (fullBundles D R)).2
      = match (closeOrder D R).find? (fun q => env.closeFails q.1 q.2) with
        | none => closeOrder D R
        | some p =>
          (closeOrder D R).takeWhile (fun q => !env.closeFails q.1 q.2) ++ [p] := by
  have hco : closeOrder D R = flatOrder (fullBundles D R) := by
    unfold closeOrder flatOrder fullBundles
    rw [List.flatMap_map]
  rw [hco, shutdownRun_spec]
  exact ⟨rfl, rfl⟩

/-- The registry length after any sequence of hook registrations. -/
theorem foldl_registerConn_length :
    ∀ (hs reg : List Nat), (hs.foldl registerConn reg).length
      = reg.length + hs.length := by
  intro hs
  induction hs with
  | nil => intro reg; simp
  | cons h rest ih =>
    intro reg
    rw [List.foldl_cons, ih]
    simp [registerConn]
    omega

/-- Hook registrations only append: the old registry is a prefix of the new
one. -/
theorem foldl_registerConn_prefix :
    ∀ (hs reg : List Nat), reg <+: hs.foldl registerConn reg := by
  intro hs
  induction hs with
  | nil => intro reg; exact List.prefix_refl _
  | cons h rest ih =>
    intro reg
    rw [List.foldl_cons]
    exact List.IsPrefix.trans (List.prefix_append reg [h]) (ih (registerConn reg h))

/-- The canonical open list of `D` instances with `R` readers has
`D * (R + 1)` entries. -/
theorem allOpens_length (D R : Nat) : (allOpens D R).length = D * (R + 1) := by
  unfold allOpens
  induction D with
  | zero => simp
  | succ d ih =>
    rw [List.range_succ, List.flatMap_append, List.length_append, ih]
    simp [instanceOpens]
    ring

/-- C6: the registry built by the connection hook from the `D * (R + 1)`
opens of a run — in whatever order the concurrent instances interleave
them — has exactly `D * (R + 1)` entries, and a registration never removes
entries: the previous registry is always a prefix of the new one. -/
theorem c6_registry_size_and_monotonicity (D R : Nat) :
    (∀ opens : List Nat, opens.Perm (allOpens D R) →
      (opens.foldl registerConn []).length = D * (R + 1)) ∧
    (∀ (reg hs : List Nat), reg <+: hs.foldl registerConn reg) := by
  constructor
  · intro opens hperm
    rw [foldl_registerConn_length, List.length_nil, Nat.zero_add,
      hperm.length_eq, allOpens_length]
  · intro reg hs
    exact foldl_registerConn_prefix hs reg

/-- C6 witness: two instances with three readers each give a registry of
eight entries. -/
theorem c6_witness :
    (allOpens 2 3).Perm (allOpens 2 3) ∧
    ((allOpens 2 3).foldl registerConn []).length = 2 * (3 + 1) := by
  exact ⟨List.Perm.refl _,
    (c6_registry_size_and_monotonicity 2 3).1 (allOpens 2 3) (List.Perm.refl _)⟩


/-- Aggregating one connection into the empty map inserts all five counter
kinds, in query order, with that connection's values. -/
theorem addConnStats_nil (status : Nat → Int → Int) (c : Nat) :
    addConnStats status [] c = dbstatusOps.map (fun op => (op, status c op)) := by
  simp [addConnStats, dbstatusOps, mapAdd, SQLITE_DBSTATUS_CACHE_USED,
    SQLITE_DBSTATUS_LOOKASIDE_USED, SQLITE_DBSTATUS_SCHEMA_USED,
    SQLITE_DBSTATUS_STMT_USED, SQLITE_DBSTATUS_CACHE_SPILL]

/-- Aggregating one more connection into a canonical five-kind map adds its
values pointwise. -/
theorem addConnStats_step (status : Nat → Int → Int) (c : Nat) (f : Int → Int) :
    addConnStats status (dbstatusOps.map (fun op => (op, f op))) c
      = dbstatusOps.map (fun op => (op, f op + status c op)) := by
  simp [addConnStats, dbstatusOps, mapAdd, SQLITE_DBSTATUS_CACHE_USED,
    SQLITE_DBSTATUS_LOOKASIDE_USED, SQLITE_DBSTATUS_SCHEMA_USED,
    SQLITE_DBSTATUS_STMT_USED, SQLITE_DBSTATUS_CACHE_SPILL]

/-- Folding the per-connection pass over any further connections keeps the
canonical five-kind shape and sums the values per kind. -/
theorem foldl_addConnStats (status : Nat → Int → Int) :
    ∀ (conns : List Nat) (f : Int → Int),
      conns.foldl (addConnStats status) (dbstatusOps.map (fun op => (op, f op)))
        = dbstatusOps.map
            (fun op => (op, f op + (conns.map (fun c => status c op)).sum)) := by
  intro conns
  induction conns with
  | nil => intro f; simp
  | cons c rest ih =>
    intro f
    rw [List.foldl_cons, addConnStats_step, ih]
    congr 1
    funext op
    simp [add_assoc]

/-- Closed form of the aggregation pass on a nonempty registry: one entry
per counter kind, in query order, holding the sum over all connections. -/
theorem printSqliteMemoryUsage_closed_form (status : Nat → Int → Int)
    (c : Nat) (conns : List Nat) :
    printSqliteMemoryUsageForAllDbs status (c :: conns)
      = dbstatusOps.map
          (fun op => (op, ((c :: conns).map (fun x => status x op)).sum)) := by
  unfold printSqliteMemoryUsageForAllDbs
  rw [List.foldl_cons, addConnStats_nil, foldl_addConnStats]
  simp

/-- C7 counterexample: with an empty registry the aggregation map stays
empty, so no counter kind — in particular `CACHE_USED` — is present at all,
refuting "each of the five counter kinds is present exactly once" for every
registry contents. -/
theorem c7_counterexample :
    printSqliteMemoryUsageForAllDbs (fun _ _ => 0) [] = [] ∧
    (printSqliteMemoryUsageForAllDbs (fun _ _ => 0) []).countP
      (fun kv => kv.1 == SQLITE_DBSTATUS_CACHE_USED) = 0 := by
  exact ⟨rfl, rfl⟩

/-- C7 (amended): for every nonempty registry the aggregation pass produces
a report whose keys are exactly the five counter kinds in query order — each
present exactly once and nothing else present — and, provided the engine
reports non-negative current values, every total is non-negative. -/
theorem c7_aggregation_report (status : Nat → Int → Int) (conns : List Nat)
    (hne : conns ≠ []) :
    (printSqliteMemoryUsageForAllDbs status conns).map Prod.fst = dbstatusOps ∧
    (∀ op, (printSqliteMemoryUsageForAllDbs status conns).countP
        (fun kv => kv.1 == op) = if op ∈ dbstatusOps then 1 else 0) ∧
    ((∀ c op, 0 ≤ status c op) →
      ∀ kv ∈ printSqliteMemoryUsageForAllDbs status conns, 0 ≤ kv.2) := by
  obtain ⟨c, rest, rfl⟩ := List.exists_cons_of_ne_nil hne
  rw [printSqliteMemoryUsage_closed_form]
  refine ⟨?_, ?_, ?_⟩
  · have hcomp : (Prod.fst ∘ fun op : Int =>
        (op, ((c :: rest).map (fun x => status x op)).sum)) = id := rfl
    rw [List.map_map, hcomp, List.map_id]
  · intro op
    rw [List.countP_map]
    have hcomp : ((fun kv : Int × Int => kv.1 == op) ∘ fun op2 : Int =>
        (op2, ((c :: rest).map (fun x => status x op2)).sum))
        = fun op2 => op2 == op := rfl
    rw [hcomp]
    by_cases hop : op ∈ dbstatusOps
    · rw [if_pos hop]
      have : dbstatusOps.countP (fun op2 => op2 == op) = dbstatusOps.count op := by
        simp [List.count]
      rw [this]
      exact List.count_eq_one_of_mem (by decide) hop
    · rw [if_neg hop]
      have : dbstatusOps.countP (fun op2 => op2 == op) = dbstatusOps.count op := by
        simp [List.count]
      rw [this, List.count_eq_zero]
      exact hop
  · intro hnn kv hkv
    obtain ⟨op, hop, rfl⟩ := List.mem_map.mp hkv
    apply List.sum_nonneg
    intro x hx
    obtain ⟨c2, hc2, rfl⟩ := List.mem_map.mp hx
    exact hnn c2 op

/-- C7 witness: two connections each reporting 2 for every counter. -/
theorem c7_witness :
    ([5, 6] : List Nat) ≠ [] ∧
    (printSqliteMemoryUsageForAllDbs (fun _ _ => 2) [5, 6]).map Prod.fst
      = dbstatusOps ∧
    (printSqliteMemoryUsageForAllDbs (fun _ _ => 2) [5, 6]).countP
      (fun kv => kv.1 == SQLITE_DBSTATUS_CACHE_USED) = 1 ∧
    ∀ kv ∈ printSqliteMemoryUsageForAllDbs (fun _ _ => 2) [5, 6], 0 ≤ kv.2 := by
  have h := c7_aggregation_report (fun _ _ => 2) [5, 6] (by decide)
  refine ⟨by decide, h.1, ?_, h.2.2 (fun c op => by norm_num)⟩
  have := h.2.1 SQLITE_DBSTATUS_CACHE_USED
  rwa [if_pos (by decide)] at this

end SqliteRepro
